import Mathlib

/-!
Verification of the Introjucer source-code editor
(`extras/Introjucer/Source/Code Editor/jucer_SourceCodeEditor.cpp`).

Strings are modelled as `List Char`; a code document is a list of lines.
JUCE library primitives that the file calls but that lie outside the
translated source (the `String` search methods, `TemporaryFile`,
`FileModificationDetector`, the settings store, `CodeHelpers`) are modelled
from the specification's description of their behaviour; each such
definition carries a doc comment saying so.
-/

namespace JucerSourceCodeEditor

/-- Characters of a JUCE `String`. -/
abbrev Str := List Char

/-- Predicate: `needle` occurs in `hay` starting at character index `i`. -/
def occursAt (needle hay : Str) (i : Nat) : Prop :=
  i + needle.length ≤ hay.length ∧ (hay.drop i).take needle.length = needle

instance decOccursAt (needle hay : Str) (i : Nat) : Decidable (occursAt needle hay i) := by
  unfold occursAt
  infer_instance

/-- Scan indices `start, start+1, …` (`fuel` of them) for the first one satisfying `p`. -/
def firstSat (p : Nat → Bool) : Nat → Nat → Option Nat
  | 0, _ => none
  | fuel + 1, i => if p i then some i else firstSat p fuel (i + 1)

/-- Scan indices `fuel-1, fuel-2, …, 0` for the first (i.e. greatest) one satisfying `p`. -/
def lastSat (p : Nat → Bool) : Nat → Option Nat
  | 0 => none
  | fuel + 1 => if p fuel then some fuel else lastSat p fuel

theorem firstSat_eq_some {p : Nat → Bool} :
    ∀ {fuel i j : Nat}, firstSat p fuel i = some j →
      p j = true ∧ i ≤ j ∧ j < i + fuel ∧ ∀ m, i ≤ m → m < j → p m = false := by
  intro fuel
  induction fuel with
  | zero => intro i j h; simp [firstSat] at h
  | succ fuel ih =>
    intro i j h
    rw [firstSat] at h
    by_cases hp : p i = true
    · rw [if_pos hp] at h
      obtain rfl : i = j := by injection h
      exact ⟨hp, Nat.le_refl _, by omega, fun m h1 h2 => absurd h2 (by omega)⟩
    · rw [if_neg hp] at h
      obtain ⟨h1, h2, h3, h4⟩ := ih h
      refine ⟨h1, by omega, by omega, ?_⟩
      intro m hm1 hm2
      rcases Nat.eq_or_lt_of_le hm1 with heq | hlt
      · subst heq; exact Bool.eq_false_iff.mpr hp
      · exact h4 m hlt hm2

theorem firstSat_eq_none {p : Nat → Bool} :
    ∀ {fuel i : Nat}, firstSat p fuel i = none →
      ∀ m, i ≤ m → m < i + fuel → p m = false := by
  intro fuel
  induction fuel with
  | zero => intro i _ m h1 h2; omega
  | succ fuel ih =>
    intro i h m hm1 hm2
    rw [firstSat] at h
    by_cases hp : p i = true
    · rw [if_pos hp] at h; exact absurd h (by simp)
    · rw [if_neg hp] at h
      rcases Nat.eq_or_lt_of_le hm1 with heq | hlt
      · subst heq; exact Bool.eq_false_iff.mpr hp
      · exact ih h m hlt (by omega)

theorem lastSat_eq_some {p : Nat → Bool} :
    ∀ {fuel j : Nat}, lastSat p fuel = some j →
      p j = true ∧ j < fuel ∧ ∀ m, j < m → m < fuel → p m = false := by
  intro fuel
  induction fuel with
  | zero => intro j h; simp [lastSat] at h
  | succ fuel ih =>
    intro j h
    rw [lastSat] at h
    by_cases hp : p fuel = true
    · rw [if_pos hp] at h
      obtain rfl : fuel = j := by injection h
      exact ⟨hp, by omega, fun m h1 h2 => by omega⟩
    · rw [if_neg hp] at h
      obtain ⟨h1, h2, h3⟩ := ih h
      refine ⟨h1, by omega, ?_⟩
      intro m hm1 hm2
      rcases Nat.lt_succ_iff_lt_or_eq.mp hm2 with hlt | heq
      · exact h3 m hm1 hlt
      · subst heq; exact Bool.eq_false_iff.mpr hp

theorem lastSat_eq_none {p : Nat → Bool} :
    ∀ {fuel : Nat}, lastSat p fuel = none → ∀ m, m < fuel → p m = false := by
  intro fuel
  induction fuel with
  | zero => intro _ m h; omega
  | succ fuel ih =>
    intro h m hm
    rw [lastSat] at h
    by_cases hp : p fuel = true
    · rw [if_pos hp] at h; exact absurd h (by simp)
    · rw [if_neg hp] at h
      rcases Nat.lt_succ_iff_lt_or_eq.mp hm with hlt | heq
      · exact ih h m hlt
      · subst heq; exact Bool.eq_false_iff.mpr hp

/-- Modelled from the spec: `juce::String::indexOf (startIndex, textToLookFor)` —
the index of the first occurrence of the search text at or after `start`, or
`none`; an empty search text yields `none` (JUCE returns `-1`).  The `String`
class itself is outside `src/`. -/
def stringIndexOfFrom (start : Nat) (hay needle : Str) : Option Nat :=
  if needle.isEmpty then none
  else firstSat (fun i => decide (occursAt needle hay i)) (hay.length + 1 - start) start

/-- Modelled from the spec: `juce::String::lastIndexOf (textToLookFor)` — the
index of the last occurrence of the search text, or `none`; an empty search
text yields `none` (JUCE returns `-1`).  The `String` class itself is outside
`src/`. -/
def stringLastIndexOf (hay needle : Str) : Option Nat :=
  if needle.isEmpty then none
  else lastSat (fun i => decide (occursAt needle hay i)) (hay.length + 1)

/-- Modelled from the spec: JUCE's case folding used by the IgnoreCase string
searches (outside `src/`); folding both strings to a common case makes the
search case-insensitive. -/
def foldCase (c : Char) : Char := c.toLower

/-- Modelled from the spec: `juce::String::indexOfIgnoreCase (startIndex, text)`
(outside `src/`) — as `stringIndexOfFrom` but ignoring letter case. -/
def stringIndexOfIgnoreCaseFrom (start : Nat) (hay needle : Str) : Option Nat :=
  stringIndexOfFrom start (hay.map foldCase) (needle.map foldCase)

/-- Modelled from the spec: `juce::String::lastIndexOfIgnoreCase (text)`
(outside `src/`) — as `stringLastIndexOf` but ignoring letter case. -/
def stringLastIndexOfIgnoreCase (hay needle : Str) : Option Nat :=
  stringLastIndexOf (hay.map foldCase) (needle.map foldCase)

theorem occursAt_lt_length {needle hay : Str} {i : Nat} (hnd : needle ≠ [])
    (h : occursAt needle hay i) : i < hay.length := by
  have h1 := h.1
  have h2 : 0 < needle.length := List.length_pos.mpr hnd
  omega

theorem stringIndexOfFrom_eq_some {start : Nat} {hay needle : Str} {j : Nat}
    (h : stringIndexOfFrom start hay needle = some j) :
    start ≤ j ∧ occursAt needle hay j ∧ ∀ m, start ≤ m → occursAt needle hay m → j ≤ m := by
  rw [stringIndexOfFrom] at h
  by_cases hnd : needle.isEmpty
  · rw [if_pos hnd] at h; exact absurd h (by simp)
  · rw [if_neg hnd] at h
    obtain ⟨h1, h2, _, h4⟩ := firstSat_eq_some h
    refine ⟨h2, of_decide_eq_true h1, ?_⟩
    intro m hm hocc
    by_contra hlt
    exact absurd (h4 m hm (by omega)) (by simpa using hocc)

theorem stringIndexOfFrom_eq_none {start : Nat} {hay needle : Str}
    (hnd : needle ≠ []) (h : stringIndexOfFrom start hay needle = none) :
    ∀ m, start ≤ m → ¬ occursAt needle hay m := by
  rw [stringIndexOfFrom, if_neg (by simpa using hnd)] at h
  intro m hm hocc
  have hlt : m < hay.length := occursAt_lt_length hnd hocc
  have := firstSat_eq_none h m hm (by omega)
  exact absurd this (by simpa using hocc)

theorem stringLastIndexOf_eq_some {hay needle : Str} {j : Nat}
    (h : stringLastIndexOf hay needle = some j) :
    occursAt needle hay j ∧ ∀ m, occursAt needle hay m → m ≤ j := by
  rw [stringLastIndexOf] at h
  by_cases hnd : needle.isEmpty
  · rw [if_pos hnd] at h; exact absurd h (by simp)
  · rw [if_neg hnd] at h
    obtain ⟨h1, _, h3⟩ := lastSat_eq_some h
    refine ⟨of_decide_eq_true h1, ?_⟩
    intro m hocc
    by_contra hlt
    have hm : m < hay.length + 1 := by
      have := hocc.1
      omega
    exact absurd (h3 m (by omega) hm) (by simpa using hocc)

theorem stringLastIndexOf_eq_none {hay needle : Str}
    (hnd : needle ≠ []) (h : stringLastIndexOf hay needle = none) :
    ∀ m, ¬ occursAt needle hay m := by
  rw [stringLastIndexOf, if_neg (by simpa using hnd)] at h
  intro m hocc
  have hm : m < hay.length + 1 := by
    have := hocc.1
    omega
  exact absurd (lastSat_eq_none h m hm) (by simpa using hocc)

theorem occursAt_take {needle hay : Str} {p i : Nat} :
    occursAt needle (hay.take p) i ↔ occursAt needle hay i ∧ i + needle.length ≤ p := by
  unfold occursAt
  rw [List.drop_take, List.take_take, List.length_take]
  constructor
  · rintro ⟨h1, h2⟩
    have hle : i + needle.length ≤ p := by omega
    have hmin : needle.length ⊓ (p - i) = needle.length := by
      rw [Nat.min_eq_left]; omega
    rw [hmin] at h2
    exact ⟨⟨by omega, h2⟩, hle⟩
  · rintro ⟨⟨h1, h2⟩, h3⟩
    have hmin : needle.length ⊓ (p - i) = needle.length := by
      rw [Nat.min_eq_left]; omega
    rw [hmin]
    exact ⟨by omega, h2⟩

/-- The string actually compared by a search: the string itself for a
case-sensitive search, its case-folded image otherwise. -/
def effStr (caseSensitive : Bool) (s : Str) : Str :=
  if caseSensitive then s else s.map foldCase

theorem effStr_length (caseSensitive : Bool) (s : Str) :
    (effStr caseSensitive s).length = s.length := by
  cases caseSensitive <;> simp [effStr]

theorem effStr_eq_nil_iff (caseSensitive : Bool) (s : Str) :
    effStr caseSensitive s = [] ↔ s = [] := by
  cases caseSensitive <;> simp [effStr]

theorem effStr_take (caseSensitive : Bool) (s : Str) (p : Nat) :
    effStr caseSensitive (s.take p) = (effStr caseSensitive s).take p := by
  cases caseSensitive <;> simp [effStr, List.map_take]

/-- Model of `CodeDocument::getLine`: the text of line `i`, empty when out of range. -/
def getLine (lines : List Str) (i : Nat) : Str := lines.getD i []

/-- The per-line search of `GenericCodeEditorComponent::findNext`
(`jucer_SourceCodeEditor.cpp` lines 461-476): forwards, the first occurrence
of the search text at or after `linePos`; backwards, the line is first cut
down to the part before `linePos` when `linePos ≥ 0`, and the last occurrence
in it is taken. -/
def searchIndex (lines : List Str) (searchText : Str) (caseSensitive forwards : Bool)
    (lineNum : Nat) (linePos : Int) : Option Nat :=
  let line := getLine lines lineNum
  if forwards then
    if caseSensitive then stringIndexOfFrom linePos.toNat line searchText
    else stringIndexOfIgnoreCaseFrom linePos.toNat line searchText
  else
    let line := if 0 ≤ linePos then line.take linePos.toNat else line
    if caseSensitive then stringLastIndexOf line searchText
    else stringLastIndexOfIgnoreCase line searchText

/-- The search loop of `GenericCodeEditorComponent::findNext`
(`jucer_SourceCodeEditor.cpp` lines 459-497): at most `totalLines` iterations
(the fuel); on a hit the position `(lineNum, index)` is selected; on a miss
the line number advances — forwards `(lineNum+1) % totalLines` with
`linePos = 0`, backwards decrement wrapping to `totalLines - 1` with
`linePos = -1`. -/
def findNextLoop (lines : List Str) (searchText : Str) (caseSensitive forwards : Bool) :
    Nat → Nat → Int → Option (Nat × Nat)
  | 0, _, _ => none
  | fuel + 1, lineNum, linePos =>
    match searchIndex lines searchText caseSensitive forwards lineNum linePos with
    | some i => some (lineNum, i)
    | none =>
      if forwards then
        findNextLoop lines searchText caseSensitive forwards fuel
          ((lineNum + 1) % lines.length) 0
      else
        findNextLoop lines searchText caseSensitive forwards fuel
          (if lineNum = 0 then lines.length - 1 else lineNum - 1) (-1)

/-- The sequence of line numbers the loop of
`GenericCodeEditorComponent::findNext` examines, in order (same control flow
as `findNextLoop`; the loop stops as soon as a line yields a hit). -/
def findNextVisits (lines : List Str) (searchText : Str) (caseSensitive forwards : Bool) :
    Nat → Nat → Int → List Nat
  | 0, _, _ => []
  | fuel + 1, lineNum, linePos =>
    lineNum ::
      match searchIndex lines searchText caseSensitive forwards lineNum linePos with
      | some _ => []
      | none =>
        if forwards then
          findNextVisits lines searchText caseSensitive forwards fuel
            ((lineNum + 1) % lines.length) 0
        else
          findNextVisits lines searchText caseSensitive forwards fuel
            (if lineNum = 0 then lines.length - 1 else lineNum - 1) (-1)

/-- Modelled from the spec: the "simple key-value settings store for search
preferences" — the last-used search string and the case-sensitivity flag.
The store itself (`getSearchString` / `setSearchString` /
`isCaseSensitiveSearch` / `setCaseSensitiveSearch`) is outside `src/`. -/
structure StoredSettings where
  searchString : Str
  caseSensitiveSearch : Bool
deriving DecidableEq

def getSearchString (s : StoredSettings) : Str := s.searchString

def isCaseSensitiveSearch (s : StoredSettings) : Bool := s.caseSensitiveSearch

def setSearchString (s : StoredSettings) (v : Str) : StoredSettings :=
  ⟨v, s.caseSensitiveSearch⟩

def setCaseSensitiveSearch (s : StoredSettings) (b : Bool) : StoredSettings :=
  ⟨s.searchString, b⟩

/-- Translation of `FindPanel::buttonClicked` (lines 365-368): stores the case button's
toggle state as the case-sensitivity preference. -/
def findPanelButtonClicked (caseButtonToggleState : Bool) (s : StoredSettings) :
    StoredSettings :=
  setCaseSensitiveSearch s caseButtonToggleState

/-- Translation of `FindPanel::textEditorTextChanged` (lines 370-376): stores the field's
text as the search string (and then re-runs `findNext (true, false)`). -/
def findPanelTextChanged (newText : Str) (s : StoredSettings) : StoredSettings :=
  setSearchString s newText

/-- Editor view state relevant to `findNext`: the highlighted region
(as `(line, indexInLine)` positions) and the caret. -/
structure ViewState where
  hlStart : Nat × Nat
  hlEnd : Nat × Nat
  caret : Nat × Nat
deriving DecidableEq

/-- Translation of `GenericCodeEditorComponent::findNext` (lines 447-498): the start position
is the end of the highlighted region when `skipCurrentSelection`, else its
start; the loop then runs over at most `getNumLines()` lines; on a hit,
`selectRegion (p, p.movedBy (searchText.length()))` highlights the occurrence
and puts the caret at its end; on a miss the view is untouched. -/
def findNext (settings : StoredSettings) (lines : List Str) (view : ViewState)
    (forwards skipCurrentSelection : Bool) : ViewState :=
  let startPos := if skipCurrentSelection then view.hlEnd else view.hlStart
  let searchText := getSearchString settings
  match findNextLoop lines searchText (isCaseSensitiveSearch settings) forwards
      lines.length startPos.1 (startPos.2 : Int) with
  | some (l, i) => ⟨(l, i), (l, i + searchText.length), (l, i + searchText.length)⟩
  | none => view

/-- Forward scan distance from line `ln` to line `l` in a document of `n`
lines (`0` on the starting line, wrapping past the last line). -/
def distF (n ln l : Nat) : Nat := if ln ≤ l then l - ln else n + l - ln

/-- Backward scan distance from line `ln` to line `l` (`0` on the starting
line, wrapping past the first line). -/
def distB (n ln l : Nat) : Nat := if l ≤ ln then ln - l else ln + n - l

theorem succ_mod_eq {n ln : Nat} (h : ln < n) :
    (ln + 1) % n = if ln + 1 = n then 0 else ln + 1 := by
  by_cases he : ln + 1 = n
  · rw [if_pos he, he, Nat.mod_self]
  · rw [if_neg he, Nat.mod_eq_of_lt (by omega)]

theorem distF_self (n ln : Nat) : distF n ln ln = 0 := by simp [distF]

theorem distF_lt {n ln l : Nat} (hln : ln < n) (hl : l < n) : distF n ln l < n := by
  unfold distF; split <;> omega

theorem distF_eq_zero_iff {n ln l : Nat} (hln : ln < n) (hl : l < n) :
    distF n ln l = 0 ↔ l = ln := by
  unfold distF; split <;> omega

theorem distF_succ_self {n ln : Nat} (hln : ln < n) :
    distF n ((ln + 1) % n) ln = n - 1 := by
  rw [succ_mod_eq hln]
  unfold distF
  split <;> split <;> omega

theorem distF_step {n ln l : Nat} (hln : ln < n) (hl : l < n) (hne : l ≠ ln) :
    distF n ln l = distF n ((ln + 1) % n) l + 1 := by
  rw [succ_mod_eq hln]
  unfold distF
  split <;> split <;> split <;> omega

theorem distF_inj {n ln l l' : Nat} (hln : ln < n) (hl : l < n) (hl' : l' < n)
    (h : distF n ln l = distF n ln l') : l = l' := by
  unfold distF at h
  split at h <;> split at h <;> omega

theorem succ_mod_lt {n ln : Nat} (h : ln < n) : (ln + 1) % n < n :=
  Nat.mod_lt _ (by omega)

theorem distB_self (n ln : Nat) : distB n ln ln = 0 := by simp [distB]

theorem distB_lt {n ln l : Nat} (hln : ln < n) (hl : l < n) : distB n ln l < n := by
  unfold distB; split <;> omega

theorem distB_eq_zero_iff {n ln l : Nat} (hln : ln < n) (hl : l < n) :
    distB n ln l = 0 ↔ l = ln := by
  unfold distB; split <;> omega

theorem bstep_lt {n ln : Nat} (hln : ln < n) :
    (if ln = 0 then n - 1 else ln - 1) < n := by
  split <;> omega

theorem distB_bstep_self {n ln : Nat} (hln : ln < n) :
    distB n (if ln = 0 then n - 1 else ln - 1) ln = n - 1 := by
  unfold distB
  split <;> split <;> omega

theorem distB_step {n ln l : Nat} (hln : ln < n) (hl : l < n) (hne : l ≠ ln) :
    distB n ln l = distB n (if ln = 0 then n - 1 else ln - 1) l + 1 := by
  unfold distB
  split <;> split <;> split <;> omega

theorem distB_inj {n ln l l' : Nat} (hln : ln < n) (hl : l < n) (hl' : l' < n)
    (h : distB n ln l = distB n ln l') : l = l' := by
  unfold distB at h
  split at h <;> split at h <;> omega

theorem searchIndex_forward (lines : List Str) (nd : Str) (cs : Bool) (ln : Nat) (lp : Nat) :
    searchIndex lines nd cs true ln (lp : Int) =
      stringIndexOfFrom lp (effStr cs (getLine lines ln)) (effStr cs nd) := by
  cases cs <;>
    simp [searchIndex, effStr, stringIndexOfIgnoreCaseFrom, Int.toNat_ofNat]

theorem searchIndex_backward (lines : List Str) (nd : Str) (cs : Bool) (ln : Nat) (lp : Int) :
    searchIndex lines nd cs false ln lp =
      stringLastIndexOf
        (effStr cs (if 0 ≤ lp then (getLine lines ln).take lp.toNat else getLine lines ln))
        (effStr cs nd) := by
  cases cs <;>
    simp [searchIndex, effStr, stringLastIndexOfIgnoreCase, apply_ite (List.map foldCase)]

/-- An occurrence the forward loop can still reach when it stands at line `ln`
with in-line start `lp` and `fuel` iterations left. -/
def FoundFWithin (lines : List Str) (cs : Bool) (nd : Str) (fuel ln lp l i : Nat) : Prop :=
  l < lines.length ∧ occursAt (effStr cs nd) (effStr cs (getLine lines l)) i ∧
    (l = ln → lp ≤ i) ∧ distF lines.length ln l < fuel

/-- Order in which the forward loop encounters positions: lines by forward
scan distance from `ln`, and left-to-right inside a line. -/
def keyFLe (n ln l i l' i' : Nat) : Prop :=
  distF n ln l < distF n ln l' ∨ (distF n ln l = distF n ln l' ∧ i ≤ i')

theorem loopF_char (lines : List Str) (nd : Str) (cs : Bool) (hnd : nd ≠ []) :
    ∀ (fuel ln lp : Nat), fuel ≤ lines.length → ln < lines.length →
      (∀ l i, findNextLoop lines nd cs true fuel ln (lp : Int) = some (l, i) →
          FoundFWithin lines cs nd fuel ln lp l i ∧
          ∀ l' i', FoundFWithin lines cs nd fuel ln lp l' i' →
            keyFLe lines.length ln l i l' i')
      ∧ (findNextLoop lines nd cs true fuel ln (lp : Int) = none →
          ∀ l i, ¬ FoundFWithin lines cs nd fuel ln lp l i) := by
  have hndeff : ∀ c, effStr c nd ≠ [] := fun c => by
    intro h; exact hnd ((effStr_eq_nil_iff c nd).mp h)
  intro fuel
  induction fuel with
  | zero =>
    intro ln lp _ _
    constructor
    · intro l i h; rw [findNextLoop] at h; exact absurd h (by simp)
    · intro _ l i hF; have := hF.2.2.2; omega
  | succ fuel ih =>
    intro ln lp hfuel hln
    have hn : 0 < lines.length := by omega
    cases hsearch : searchIndex lines nd cs true ln (lp : Int) with
    | some j =>
      have hloop : findNextLoop lines nd cs true (fuel + 1) ln (lp : Int) = some (ln, j) := by
        rw [findNextLoop, hsearch]
      rw [searchIndex_forward] at hsearch
      obtain ⟨hle, hocc, hmin⟩ := stringIndexOfFrom_eq_some hsearch
      constructor
      · intro l i h
        rw [hloop] at h
        simp only [Option.some.injEq, Prod.mk.injEq] at h
        obtain ⟨rfl, rfl⟩ := h
        refine ⟨⟨hln, hocc, fun _ => hle, by rw [distF_self]; omega⟩, ?_⟩
        rintro l' i' ⟨hl', hocc', hcon', _⟩
        by_cases hl'ln : l' = ln
        · subst hl'ln
          exact Or.inr ⟨rfl, hmin i' (hcon' rfl) hocc'⟩
        · left
          rw [distF_self]
          have hd0 : distF lines.length ln l' ≠ 0 := by
            intro h0
            exact hl'ln ((distF_eq_zero_iff hln hl').mp h0)
          omega
      · intro h
        rw [hloop] at h
        exact absurd h (by simp)
    | none =>
      have hloop : findNextLoop lines nd cs true (fuel + 1) ln (lp : Int) =
          findNextLoop lines nd cs true fuel ((ln + 1) % lines.length) ((0 : Nat) : Int) := by
        rw [findNextLoop, hsearch]
        rfl
      rw [searchIndex_forward] at hsearch
      have hnone := stringIndexOfFrom_eq_none (hndeff cs) hsearch
      have hln' : (ln + 1) % lines.length < lines.length := succ_mod_lt hln
      have ihh := ih ((ln + 1) % lines.length) 0 (by omega) hln'
      have hset : ∀ l i, FoundFWithin lines cs nd (fuel + 1) ln lp l i ↔
          FoundFWithin lines cs nd fuel ((ln + 1) % lines.length) 0 l i := by
        intro l i
        constructor
        · rintro ⟨hl, hocc', hcon, hdist⟩
          have hlne : l ≠ ln := by
            rintro rfl
            exact hnone i (hcon rfl) hocc'
          refine ⟨hl, hocc', fun _ => Nat.zero_le _, ?_⟩
          have := distF_step hln hl hlne
          omega
        · rintro ⟨hl, hocc', _, hdist⟩
          have hlne : l ≠ ln := by
            rintro rfl
            rw [distF_succ_self hln] at hdist
            omega
          refine ⟨hl, hocc', fun he => absurd he hlne, ?_⟩
          rw [distF_step hln hl hlne]
          omega
      constructor
      · intro l i h
        rw [hloop] at h
        obtain ⟨hF', hmin'⟩ := ihh.1 l i h
        have hF := (hset l i).mpr hF'
        refine ⟨hF, ?_⟩
        intro l' i' hF2
        have hk := hmin' l' i' ((hset l' i').mp hF2)
        have hl : l < lines.length := hF.1
        have hl' : l' < lines.length := hF2.1
        have hlne : l ≠ ln := by
          rintro rfl
          have hd := hF'.2.2.2
          rw [distF_succ_self hln] at hd
          omega
        have hl'ne : l' ≠ ln := by
          rintro rfl
          exact hnone i' (hF2.2.2.1 rfl) hF2.2.1
        rcases hk with hk | ⟨hkeq, hki⟩
        · left
          rw [distF_step hln hl hlne, distF_step hln hl' hl'ne]
          omega
        · right
          refine ⟨?_, hki⟩
          rw [distF_step hln hl hlne, distF_step hln hl' hl'ne, hkeq]
      · intro h l i hF
        rw [hloop] at h
        exact ihh.2 h l i ((hset l i).mp hF)

theorem occursAt_restricted (cs : Bool) (nd line : Str) (lp : Int) (i : Nat) :
    occursAt (effStr cs nd) (effStr cs (if 0 ≤ lp then line.take lp.toNat else line)) i ↔
      occursAt (effStr cs nd) (effStr cs line) i ∧ (0 ≤ lp → i + nd.length ≤ lp.toNat) := by
  by_cases h0 : 0 ≤ lp
  · rw [if_pos h0, effStr_take, occursAt_take, effStr_length]
    constructor
    · rintro ⟨h1, h2⟩; exact ⟨h1, fun _ => h2⟩
    · rintro ⟨h1, h2⟩; exact ⟨h1, h2 h0⟩
  · rw [if_neg h0]
    constructor
    · intro h1; exact ⟨h1, fun hc => absurd hc h0⟩
    · intro h1; exact h1.1

/-- An occurrence the backward loop can still reach when it stands at line
`ln` with in-line limit `lp` (`-1` meaning the whole line) and `fuel`
iterations left. -/
def FoundBWithin (lines : List Str) (cs : Bool) (nd : Str) (fuel ln : Nat) (lp : Int)
    (l i : Nat) : Prop :=
  l < lines.length ∧ occursAt (effStr cs nd) (effStr cs (getLine lines l)) i ∧
    (l = ln → 0 ≤ lp → i + nd.length ≤ lp.toNat) ∧ distB lines.length ln l < fuel

/-- Order in which the backward loop encounters positions: lines by backward
scan distance from `ln`, and right-to-left inside a line. -/
def keyBLe (n ln l i l' i' : Nat) : Prop :=
  distB n ln l < distB n ln l' ∨ (distB n ln l = distB n ln l' ∧ i' ≤ i)

theorem loopB_char (lines : List Str) (nd : Str) (cs : Bool) (hnd : nd ≠ []) :
    ∀ (fuel ln : Nat) (lp : Int), fuel ≤ lines.length → ln < lines.length →
      (∀ l i, findNextLoop lines nd cs false fuel ln lp = some (l, i) →
          FoundBWithin lines cs nd fuel ln lp l i ∧
          ∀ l' i', FoundBWithin lines cs nd fuel ln lp l' i' →
            keyBLe lines.length ln l i l' i')
      ∧ (findNextLoop lines nd cs false fuel ln lp = none →
          ∀ l i, ¬ FoundBWithin lines cs nd fuel ln lp l i) := by
  have hndeff : ∀ c, effStr c nd ≠ [] := fun c => by
    intro h; exact hnd ((effStr_eq_nil_iff c nd).mp h)
  intro fuel
  induction fuel with
  | zero =>
    intro ln lp _ _
    constructor
    · intro l i h; rw [findNextLoop] at h; exact absurd h (by simp)
    · intro _ l i hF; have := hF.2.2.2; omega
  | succ fuel ih =>
    intro ln lp hfuel hln
    have hn : 0 < lines.length := by omega
    cases hsearch : searchIndex lines nd cs false ln lp with
    | some j =>
      have hloop : findNextLoop lines nd cs false (fuel + 1) ln lp = some (ln, j) := by
        rw [findNextLoop, hsearch]
      rw [searchIndex_backward] at hsearch
      obtain ⟨hoccr, hmax⟩ := stringLastIndexOf_eq_some hsearch
      obtain ⟨hocc, hbound⟩ := (occursAt_restricted cs nd (getLine lines ln) lp j).mp hoccr
      constructor
      · intro l i h
        rw [hloop] at h
        simp only [Option.some.injEq, Prod.mk.injEq] at h
        obtain ⟨rfl, rfl⟩ := h
        refine ⟨⟨hln, hocc, fun _ => hbound, by rw [distB_self]; omega⟩, ?_⟩
        rintro l' i' ⟨hl', hocc', hcon', _⟩
        by_cases hl'ln : l' = ln
        · subst hl'ln
          have hr' := (occursAt_restricted cs nd (getLine lines l') lp i').mpr
            ⟨hocc', hcon' rfl⟩
          exact Or.inr ⟨rfl, hmax i' hr'⟩
        · left
          rw [distB_self]
          have hd0 : distB lines.length ln l' ≠ 0 := by
            intro h0
            exact hl'ln ((distB_eq_zero_iff hln hl').mp h0)
          omega
      · intro h
        rw [hloop] at h
        exact absurd h (by simp)
    | none =>
      have hloop : findNextLoop lines nd cs false (fuel + 1) ln lp =
          findNextLoop lines nd cs false fuel
            (if ln = 0 then lines.length - 1 else ln - 1) (-1) := by
        rw [findNextLoop, hsearch]
        rfl
      rw [searchIndex_backward] at hsearch
      have hnone0 := stringLastIndexOf_eq_none (hndeff cs) hsearch
      have hnone : ∀ m, ¬ (occursAt (effStr cs nd) (effStr cs (getLine lines ln)) m ∧
          (0 ≤ lp → m + nd.length ≤ lp.toNat)) := by
        intro m hm
        exact hnone0 m ((occursAt_restricted cs nd (getLine lines ln) lp m).mpr hm)
      have hln' : (if ln = 0 then lines.length - 1 else ln - 1) < lines.length := bstep_lt hln
      have ihh := ih (if ln = 0 then lines.length - 1 else ln - 1) (-1) (by omega) hln'
      have hset : ∀ l i, FoundBWithin lines cs nd (fuel + 1) ln lp l i ↔
          FoundBWithin lines cs nd fuel (if ln = 0 then lines.length - 1 else ln - 1) (-1) l i := by
        intro l i
        constructor
        · rintro ⟨hl, hocc', hcon, hdist⟩
          have hlne : l ≠ ln := by
            rintro rfl
            exact hnone i ⟨hocc', hcon rfl⟩
          refine ⟨hl, hocc', fun _ h0 => absurd h0 (by omega), ?_⟩
          have := distB_step hln hl hlne
          omega
        · rintro ⟨hl, hocc', _, hdist⟩
          have hlne : l ≠ ln := by
            rintro rfl
            have hd := hdist
            rw [distB_bstep_self hln] at hd
            omega
          refine ⟨hl, hocc', fun he => absurd he hlne, ?_⟩
          rw [distB_step hln hl hlne]
          omega
      constructor
      · intro l i h
        rw [hloop] at h
        obtain ⟨hF', hmin'⟩ := ihh.1 l i h
        have hF := (hset l i).mpr hF'
        refine ⟨hF, ?_⟩
        intro l' i' hF2
        have hk := hmin' l' i' ((hset l' i').mp hF2)
        have hl : l < lines.length := hF.1
        have hl' : l' < lines.length := hF2.1
        have hlne : l ≠ ln := by
          rintro rfl
          have hd := hF'.2.2.2
          rw [distB_bstep_self hln] at hd
          omega
        have hl'ne : l' ≠ ln := by
          rintro rfl
          exact hnone i' ⟨hF2.2.1, hF2.2.2.1 rfl⟩
        rcases hk with hk | ⟨hkeq, hki⟩
        · left
          rw [distB_step hln hl hlne, distB_step hln hl' hl'ne]
          omega
        · right
          refine ⟨?_, hki⟩
          rw [distB_step hln hl hlne, distB_step hln hl' hl'ne, hkeq]
      · intro h l i hF
        rw [hloop] at h
        exact ihh.2 h l i ((hset l i).mp hF)

theorem searchIndex_forward_toNat (lines : List Str) (nd : Str) (cs : Bool) (ln : Nat)
    (lp : Int) :
    searchIndex lines nd cs true ln lp =
      stringIndexOfFrom lp.toNat (effStr cs (getLine lines ln)) (effStr cs nd) := by
  cases cs <;> simp [searchIndex, effStr, stringIndexOfIgnoreCaseFrom]

theorem searchIndex_nil (lines : List Str) (cs forwards : Bool) (ln : Nat) (lp : Int) :
    searchIndex lines [] cs forwards ln lp = none := by
  cases cs <;> cases forwards <;>
    simp [searchIndex, stringIndexOfFrom, stringIndexOfIgnoreCaseFrom,
      stringLastIndexOf, stringLastIndexOfIgnoreCase]

theorem searchIndex_some_occursAt {lines : List Str} {nd : Str} {cs forwards : Bool}
    {ln : Nat} {lp : Int} {j : Nat}
    (h : searchIndex lines nd cs forwards ln lp = some j) :
    occursAt (effStr cs nd) (effStr cs (getLine lines ln)) j := by
  cases forwards
  · rw [searchIndex_backward] at h
    exact ((occursAt_restricted cs nd (getLine lines ln) lp j).mp
      (stringLastIndexOf_eq_some h).1).1
  · rw [searchIndex_forward_toNat] at h
    exact (stringIndexOfFrom_eq_some h).2.1

theorem findNextLoop_some_occursAt (lines : List Str) (nd : Str) (cs forwards : Bool) :
    ∀ (fuel ln : Nat) (lp : Int) (l i : Nat),
      findNextLoop lines nd cs forwards fuel ln lp = some (l, i) →
      occursAt (effStr cs nd) (effStr cs (getLine lines l)) i := by
  intro fuel
  induction fuel with
  | zero => intro ln lp l i h; rw [findNextLoop] at h; exact absurd h (by simp)
  | succ fuel ih =>
    intro ln lp l i h
    rw [findNextLoop] at h
    cases hsearch : searchIndex lines nd cs forwards ln lp with
    | some j =>
      rw [hsearch] at h
      simp only [Option.some.injEq, Prod.mk.injEq] at h
      obtain ⟨rfl, rfl⟩ := h
      exact searchIndex_some_occursAt hsearch
    | none =>
      rw [hsearch] at h
      cases forwards
      · simp only [Bool.false_eq_true, if_false] at h
        exact ih _ _ _ _ h
      · simp only [if_true] at h
        exact ih _ _ _ _ h

theorem findNextLoop_eq_none_of_no_occurrence (lines : List Str) (nd : Str)
    (cs forwards : Bool)
    (hno : nd = [] ∨ ∀ line ∈ lines, ∀ i,
        ¬ occursAt (effStr cs nd) (effStr cs line) i) :
    ∀ (fuel ln : Nat) (lp : Int), findNextLoop lines nd cs forwards fuel ln lp = none := by
  have hsi : ∀ (ln : Nat) (lp : Int), searchIndex lines nd cs forwards ln lp = none := by
    intro ln lp
    rcases hno with rfl | hno
    · exact searchIndex_nil lines cs forwards ln lp
    · cases hval : searchIndex lines nd cs forwards ln lp with
      | none => rfl
      | some j =>
        exfalso
        have hocc := searchIndex_some_occursAt hval
        by_cases hln : ln < lines.length
        · have hmem : getLine lines ln ∈ lines := by
            rw [getLine, List.getD_eq_getElem _ _ hln]
            exact List.getElem_mem hln
          exact hno (getLine lines ln) hmem j hocc
        · have hline : getLine lines ln = [] := by
            rw [getLine, List.getD_eq_default]
            omega
          rw [hline] at hocc
          have hnil : effStr cs nd = [] := by
            have h1 := hocc.1
            have h2 : (effStr cs ([] : Str)).length = 0 := by
              rw [effStr_length]; rfl
            rw [h2] at h1
            exact List.length_eq_zero.mp (by omega)
          have hndnil : nd = [] := (effStr_eq_nil_iff cs nd).mp hnil
          rw [hndnil, searchIndex_nil] at hval
          exact absurd hval (by simp)
  intro fuel
  induction fuel with
  | zero => intro ln lp; rw [findNextLoop]
  | succ fuel ih =>
    intro ln lp
    rw [findNextLoop, hsi]
    cases forwards
    · simp only [Bool.false_eq_true, if_false]
      exact ih _ _
    · simp only [if_true]
      exact ih _ _

theorem findNextVisitsF_aux (lines : List Str) (nd : Str) (cs : Bool) :
    ∀ (fuel ln : Nat) (lp : Int), fuel ≤ lines.length → ln < lines.length →
      (findNextVisits lines nd cs true fuel ln lp).Nodup ∧
      ∀ l ∈ findNextVisits lines nd cs true fuel ln lp,
        l < lines.length ∧ distF lines.length ln l < fuel := by
  intro fuel
  induction fuel with
  | zero => intro ln lp _ _; rw [findNextVisits]; exact ⟨List.nodup_nil, by simp⟩
  | succ fuel ih =>
    intro ln lp hfuel hln
    cases hsearch : searchIndex lines nd cs true ln lp with
    | some j =>
      have hv : findNextVisits lines nd cs true (fuel + 1) ln lp = [ln] := by
        rw [findNextVisits, hsearch]
      rw [hv]
      refine ⟨List.nodup_singleton ln, ?_⟩
      intro l hl
      rw [List.mem_singleton] at hl
      subst hl
      exact ⟨hln, by rw [distF_self]; omega⟩
    | none =>
      have hv : findNextVisits lines nd cs true (fuel + 1) ln lp =
          ln :: findNextVisits lines nd cs true fuel ((ln + 1) % lines.length) 0 := by
        rw [findNextVisits, hsearch]
        rfl
      rw [hv]
      have hln' : (ln + 1) % lines.length < lines.length := succ_mod_lt hln
      obtain ⟨hnd', hmem⟩ := ih ((ln + 1) % lines.length) 0 (by omega) hln'
      constructor
      · rw [List.nodup_cons]
        refine ⟨?_, hnd'⟩
        intro hmem0
        have hd := (hmem ln hmem0).2
        rw [distF_succ_self hln] at hd
        omega
      · intro l hl
        rw [List.mem_cons] at hl
        rcases hl with rfl | hl
        · exact ⟨hln, by rw [distF_self]; omega⟩
        · obtain ⟨h1, h2⟩ := hmem l hl
          have hlne : l ≠ ln := by
            rintro rfl
            rw [distF_succ_self hln] at h2
            omega
          exact ⟨h1, by rw [distF_step hln h1 hlne]; omega⟩

theorem findNextVisitsB_aux (lines : List Str) (nd : Str) (cs : Bool) :
    ∀ (fuel ln : Nat) (lp : Int), fuel ≤ lines.length → ln < lines.length →
      (findNextVisits lines nd cs false fuel ln lp).Nodup ∧
      ∀ l ∈ findNextVisits lines nd cs false fuel ln lp,
        l < lines.length ∧ distB lines.length ln l < fuel := by
  intro fuel
  induction fuel with
  | zero => intro ln lp _ _; rw [findNextVisits]; exact ⟨List.nodup_nil, by simp⟩
  | succ fuel ih =>
    intro ln lp hfuel hln
    cases hsearch : searchIndex lines nd cs false ln lp with
    | some j =>
      have hv : findNextVisits lines nd cs false (fuel + 1) ln lp = [ln] := by
        rw [findNextVisits, hsearch]
      rw [hv]
      refine ⟨List.nodup_singleton ln, ?_⟩
      intro l hl
      rw [List.mem_singleton] at hl
      subst hl
      exact ⟨hln, by rw [distB_self]; omega⟩
    | none =>
      have hv : findNextVisits lines nd cs false (fuel + 1) ln lp =
          ln :: findNextVisits lines nd cs false fuel
            (if ln = 0 then lines.length - 1 else ln - 1) (-1) := by
        rw [findNextVisits, hsearch]
        rfl
      rw [hv]
      have hln' : (if ln = 0 then lines.length - 1 else ln - 1) < lines.length := bstep_lt hln
      obtain ⟨hnd', hmem⟩ := ih (if ln = 0 then lines.length - 1 else ln - 1) (-1)
        (by omega) hln'
      constructor
      · rw [List.nodup_cons]
        refine ⟨?_, hnd'⟩
        intro hmem0
        have hd := (hmem ln hmem0).2
        rw [distB_bstep_self hln] at hd
        omega
      · intro l hl
        rw [List.mem_cons] at hl
        rcases hl with rfl | hl
        · exact ⟨hln, by rw [distB_self]; omega⟩
        · obtain ⟨h1, h2⟩ := hmem l hl
          have hlne : l ≠ ln := by
            rintro rfl
            rw [distB_bstep_self hln] at h2
            omega
          exact ⟨h1, by rw [distB_step hln h1 hlne]; omega⟩

/-- The search string occurs at index `i` of line `l`, compared the way the
active case-sensitivity setting compares strings. -/
def occursInLine (lines : List Str) (cs : Bool) (nd : Str) (l i : Nat) : Prop :=
  occursAt (effStr cs nd) (effStr cs (getLine lines l)) i

instance decOccursInLine (lines : List Str) (cs : Bool) (nd : Str) (l i : Nat) :
    Decidable (occursInLine lines cs nd l i) := by
  unfold occursInLine
  infer_instance

/-- An occurrence the forward search starting at `(l0, p0)` can find: any
in-line occurrence except those strictly before `p0` on the starting line. -/
def FoundForward (lines : List Str) (cs : Bool) (nd : Str) (l0 p0 l i : Nat) : Prop :=
  l < lines.length ∧ occursInLine lines cs nd l i ∧ (l ≠ l0 ∨ p0 ≤ i)

instance decFoundForward (lines : List Str) (cs : Bool) (nd : Str) (l0 p0 l i : Nat) :
    Decidable (FoundForward lines cs nd l0 p0 l i) := by
  unfold FoundForward
  infer_instance

/-- An occurrence the backward search starting at `(l0, p0)` can find: any
in-line occurrence except those on the starting line that do not end at or
before index `p0`. -/
def FoundBackward (lines : List Str) (cs : Bool) (nd : Str) (l0 p0 l i : Nat) : Prop :=
  l < lines.length ∧ occursInLine lines cs nd l i ∧ (l ≠ l0 ∨ i + nd.length ≤ p0)

instance decFoundBackward (lines : List Str) (cs : Bool) (nd : Str) (l0 p0 l i : Nat) :
    Decidable (FoundBackward lines cs nd l0 p0 l i) := by
  unfold FoundBackward
  infer_instance

instance decKeyFLe (n ln l i l' i' : Nat) : Decidable (keyFLe n ln l i l' i') := by
  unfold keyFLe
  infer_instance

instance decKeyBLe (n ln l i l' i' : Nat) : Decidable (keyBLe n ln l i l' i') := by
  unfold keyBLe
  infer_instance

theorem occursInLine_lt {lines : List Str} {cs : Bool} {nd : Str} {l i : Nat}
    (hnd : nd ≠ []) (h : occursInLine lines cs nd l i) : i < (getLine lines l).length := by
  have h1 := occursAt_lt_length (fun hc => hnd ((effStr_eq_nil_iff cs nd).mp hc)) h
  rwa [effStr_length] at h1

theorem FoundForward_iff_within {lines : List Str} {cs : Bool} {nd : Str}
    {l0 p0 l i : Nat} (hl0 : l0 < lines.length) :
    FoundForward lines cs nd l0 p0 l i ↔
      FoundFWithin lines cs nd lines.length l0 p0 l i := by
  constructor
  · rintro ⟨hl, hocc, hcon⟩
    refine ⟨hl, hocc, ?_, distF_lt hl0 hl⟩
    intro he
    rcases hcon with hne | hle
    · exact absurd he hne
    · exact hle
  · rintro ⟨hl, hocc, hcon, _⟩
    refine ⟨hl, hocc, ?_⟩
    by_cases he : l = l0
    · exact Or.inr (hcon he)
    · exact Or.inl he

theorem FoundBackward_iff_within {lines : List Str} {cs : Bool} {nd : Str}
    {l0 p0 l i : Nat} (hl0 : l0 < lines.length) :
    FoundBackward lines cs nd l0 p0 l i ↔
      FoundBWithin lines cs nd lines.length l0 (p0 : Int) l i := by
  constructor
  · rintro ⟨hl, hocc, hcon⟩
    refine ⟨hl, hocc, ?_, distB_lt hl0 hl⟩
    intro he _
    rcases hcon with hne | hle
    · exact absurd he hne
    · simpa using hle
  · rintro ⟨hl, hocc, hcon, _⟩
    refine ⟨hl, hocc, ?_⟩
    by_cases he : l = l0
    · refine Or.inr ?_
      have := hcon he (by omega)
      simpa using this
    · exact Or.inl he

/-- Claim C3 (amended).  Forward `findNext` starts at the end of the current
highlighted region when `skipCurrentSelection` is set and at its start
otherwise, and scans line by line, wrapping from the last line back to the
first, visiting each line at most once — so the portion of the starting line
strictly before the start index is never searched.  Among the occurrences it
can reach (`FoundForward`), it selects exactly the first one in scan order
(`keyFLe`): it returns `some (l, i)` iff `(l, i)` is the scan-order-least
reachable occurrence, returns `none` iff there is no reachable occurrence,
and on a hit `selectRegion` highlights the occurrence with the caret at its
end. -/
theorem findNext_forwards_characterisation
    (settings : StoredSettings) (lines : List Str) (view : ViewState)
    (skipCurrentSelection : Bool) (l0 p0 : Nat)
    (hstart : (if skipCurrentSelection then view.hlEnd else view.hlStart) = (l0, p0))
    (hnd : getSearchString settings ≠ [])
    (hl0 : l0 < lines.length) :
    (∀ l i,
        findNextLoop lines (getSearchString settings) (isCaseSensitiveSearch settings) true
            lines.length l0 (p0 : Int) = some (l, i) ↔
          FoundForward lines (isCaseSensitiveSearch settings) (getSearchString settings)
              l0 p0 l i ∧
            ∀ l' < lines.length, ∀ i' < (getLine lines l').length,
              FoundForward lines (isCaseSensitiveSearch settings) (getSearchString settings)
                  l0 p0 l' i' →
                keyFLe lines.length l0 l i l' i') ∧
    (findNextLoop lines (getSearchString settings) (isCaseSensitiveSearch settings) true
        lines.length l0 (p0 : Int) = none ↔
      ∀ l < lines.length, ∀ i < (getLine lines l).length,
        ¬ FoundForward lines (isCaseSensitiveSearch settings) (getSearchString settings)
            l0 p0 l i) ∧
    (∀ l i,
        findNextLoop lines (getSearchString settings) (isCaseSensitiveSearch settings) true
            lines.length l0 (p0 : Int) = some (l, i) →
        findNext settings lines view true skipCurrentSelection =
          ⟨(l, i), (l, i + (getSearchString settings).length),
           (l, i + (getSearchString settings).length)⟩) := by
  have hchar := loopF_char lines (getSearchString settings) (isCaseSensitiveSearch settings)
    hnd lines.length l0 p0 (Nat.le_refl _) hl0
  refine ⟨?_, ?_, ?_⟩
  · intro l i
    constructor
    · intro h
      obtain ⟨hF, hmin⟩ := hchar.1 l i h
      refine ⟨(FoundForward_iff_within hl0).mpr hF, ?_⟩
      intro l' _ i' _ hF'
      exact hmin l' i' ((FoundForward_iff_within hl0).mp hF')
    · rintro ⟨hF, hmin⟩
      cases hres : findNextLoop lines (getSearchString settings)
          (isCaseSensitiveSearch settings) true lines.length l0 (p0 : Int) with
      | none =>
        exact absurd ((FoundForward_iff_within hl0).mp hF) (hchar.2 hres l i)
      | some li =>
        obtain ⟨l1, i1⟩ := li
        obtain ⟨hF1, hmin1⟩ := hchar.1 l1 i1 hres
        have hFf1 := (FoundForward_iff_within hl0).mpr hF1
        have hk1 : keyFLe lines.length l0 l1 i1 l i :=
          hmin1 l i ((FoundForward_iff_within hl0).mp hF)
        have hk2 : keyFLe lines.length l0 l i l1 i1 :=
          hmin l1 hFf1.1 i1 (occursInLine_lt hnd hFf1.2.1) hFf1
        have hdeq : distF lines.length l0 l = distF lines.length l0 l1 := by
          rcases hk1 with h1 | ⟨h1, _⟩ <;> rcases hk2 with h2 | ⟨h2, _⟩ <;> omega
        obtain rfl : l = l1 := distF_inj hl0 hF.1 hFf1.1 hdeq
        obtain rfl : i = i1 := by
          rcases hk1 with h1 | ⟨h1, hi1⟩ <;> rcases hk2 with h2 | ⟨h2, hi2⟩ <;> omega
        rfl
  · constructor
    · intro h l hl i hi hF
      exact hchar.2 h l i ((FoundForward_iff_within hl0).mp hF)
    · intro h
      cases hres : findNextLoop lines (getSearchString settings)
          (isCaseSensitiveSearch settings) true lines.length l0 (p0 : Int) with
      | none => rfl
      | some li =>
        exfalso
        obtain ⟨l1, i1⟩ := li
        obtain ⟨hF1, _⟩ := hchar.1 l1 i1 hres
        have hFf1 := (FoundForward_iff_within hl0).mpr hF1
        exact h l1 hFf1.1 i1 (occursInLine_lt hnd hFf1.2.1) hFf1
  · intro l i h
    simp only [findNext, hstart]
    rw [h]

/-- Claim C3 witness: in the one-line document `"ab"` with search string
`"b"`, starting from an empty highlight at the line start, forward find
selects the occurrence at index 1. -/
theorem findNext_forwards_characterisation_witness :
    findNext ⟨['b'], true⟩ [['a', 'b']] ⟨(0, 0), (0, 0), (0, 0)⟩ true false =
      ⟨(0, 1), (0, 2), (0, 2)⟩ := by
  have h := findNext_forwards_characterisation ⟨['b'], true⟩ [['a', 'b']]
    ⟨(0, 0), (0, 0), (0, 0)⟩ false 0 0 rfl (by decide) (by decide)
  have hsome := (h.1 0 1).mpr ⟨by decide, by decide⟩
  exact h.2.2 0 1 hsome

/-- Claim C3 counterexample: in the one-line document `"abc"` the search
string `"ab"` occurs (at index 0), yet forward `findNext` starting from the
caret at index 2 selects nothing — the view is returned unchanged, which is
not the selection of the occurrence the claim promises.  The claim "for every
non-empty search string that occurs in the document, findNext selects the
first occurrence at or after the start, wrapping when no occurrence follows"
is therefore false: the wrap never re-examines the part of the starting line
before the start position. -/
theorem findNext_forwards_claim_counterexample :
    occursAt ['a', 'b'] ['a', 'b', 'c'] 0 ∧
    findNext ⟨['a', 'b'], true⟩ [['a', 'b', 'c']] ⟨(0, 2), (0, 2), (0, 2)⟩ true true =
      ⟨(0, 2), (0, 2), (0, 2)⟩ ∧
    (⟨(0, 2), (0, 2), (0, 2)⟩ : ViewState) ≠ ⟨(0, 0), (0, 2), (0, 2)⟩ := by
  refine ⟨by decide, ?_, by decide⟩
  rfl

/-- Claim C4 (amended).  Backward `findNext` (`findNext (false, false)`)
starts at the start of the current highlighted region; on the starting line
only the portion strictly before the start index is searched (an occurrence
must end at or before that index), earlier lines are searched in full taking
the last occurrence in each, and the scan wraps from the first line to the
last, visiting each line at most once — so occurrences on the starting line
at or crossing the start index are never found.  Among the occurrences it can
reach (`FoundBackward`), it selects exactly the first one in backward scan
order (`keyBLe`), i.e. the reachable occurrence nearest before the start
position; it returns `none` iff there is no reachable occurrence, and on a
hit `selectRegion` highlights the occurrence with the caret at its end. -/
theorem findNext_backwards_characterisation
    (settings : StoredSettings) (lines : List Str) (view : ViewState)
    (l0 p0 : Nat)
    (hstart : view.hlStart = (l0, p0))
    (hnd : getSearchString settings ≠ [])
    (hl0 : l0 < lines.length) :
    (∀ l i,
        findNextLoop lines (getSearchString settings) (isCaseSensitiveSearch settings) false
            lines.length l0 (p0 : Int) = some (l, i) ↔
          FoundBackward lines (isCaseSensitiveSearch settings) (getSearchString settings)
              l0 p0 l i ∧
            ∀ l' < lines.length, ∀ i' < (getLine lines l').length,
              FoundBackward lines (isCaseSensitiveSearch settings) (getSearchString settings)
                  l0 p0 l' i' →
                keyBLe lines.length l0 l i l' i') ∧
    (findNextLoop lines (getSearchString settings) (isCaseSensitiveSearch settings) false
        lines.length l0 (p0 : Int) = none ↔
      ∀ l < lines.length, ∀ i < (getLine lines l).length,
        ¬ FoundBackward lines (isCaseSensitiveSearch settings) (getSearchString settings)
            l0 p0 l i) ∧
    (∀ l i,
        findNextLoop lines (getSearchString settings) (isCaseSensitiveSearch settings) false
            lines.length l0 (p0 : Int) = some (l, i) →
        findNext settings lines view false false =
          ⟨(l, i), (l, i + (getSearchString settings).length),
           (l, i + (getSearchString settings).length)⟩) := by
  have hchar := loopB_char lines (getSearchString settings) (isCaseSensitiveSearch settings)
    hnd lines.length l0 (p0 : Int) (Nat.le_refl _) hl0
  refine ⟨?_, ?_, ?_⟩
  · intro l i
    constructor
    · intro h
      obtain ⟨hF, hmin⟩ := hchar.1 l i h
      refine ⟨(FoundBackward_iff_within hl0).mpr hF, ?_⟩
      intro l' _ i' _ hF'
      exact hmin l' i' ((FoundBackward_iff_within hl0).mp hF')
    · rintro ⟨hF, hmin⟩
      cases hres : findNextLoop lines (getSearchString settings)
          (isCaseSensitiveSearch settings) false lines.length l0 (p0 : Int) with
      | none =>
        exact absurd ((FoundBackward_iff_within hl0).mp hF) (hchar.2 hres l i)
      | some li =>
        obtain ⟨l1, i1⟩ := li
        obtain ⟨hF1, hmin1⟩ := hchar.1 l1 i1 hres
        have hFf1 := (FoundBackward_iff_within hl0).mpr hF1
        have hk1 : keyBLe lines.length l0 l1 i1 l i :=
          hmin1 l i ((FoundBackward_iff_within hl0).mp hF)
        have hk2 : keyBLe lines.length l0 l i l1 i1 :=
          hmin l1 hFf1.1 i1 (occursInLine_lt hnd hFf1.2.1) hFf1
        have hdeq : distB lines.length l0 l = distB lines.length l0 l1 := by
          rcases hk1 with h1 | ⟨h1, _⟩ <;> rcases hk2 with h2 | ⟨h2, _⟩ <;> omega
        obtain rfl : l = l1 := distB_inj hl0 hF.1 hFf1.1 hdeq
        obtain rfl : i = i1 := by
          rcases hk1 with h1 | ⟨h1, hi1⟩ <;> rcases hk2 with h2 | ⟨h2, hi2⟩ <;> omega
        rfl
  · constructor
    · intro h l hl i hi hF
      exact hchar.2 h l i ((FoundBackward_iff_within hl0).mp hF)
    · intro h
      cases hres : findNextLoop lines (getSearchString settings)
          (isCaseSensitiveSearch settings) false lines.length l0 (p0 : Int) with
      | none => rfl
      | some li =>
        exfalso
        obtain ⟨l1, i1⟩ := li
        obtain ⟨hF1, _⟩ := hchar.1 l1 i1 hres
        have hFf1 := (FoundBackward_iff_within hl0).mpr hF1
        exact h l1 hFf1.1 i1 (occursInLine_lt hnd hFf1.2.1) hFf1
  · intro l i h
    have hstart' : (if false then view.hlEnd else view.hlStart) = (l0, p0) := by
      simpa using hstart
    simp only [findNext, hstart']
    rw [h]

/-- Claim C4 witness: in the one-line document `"ab"` with search string
`"a"`, starting from the highlight start at index 2, backward find selects
the occurrence at index 0. -/
theorem findNext_backwards_characterisation_witness :
    findNext ⟨['a'], true⟩ [['a', 'b']] ⟨(0, 2), (0, 2), (0, 2)⟩ false false =
      ⟨(0, 0), (0, 1), (0, 1)⟩ := by
  have h := findNext_backwards_characterisation ⟨['a'], true⟩ [['a', 'b']]
    ⟨(0, 2), (0, 2), (0, 2)⟩ 0 2 rfl (by decide) (by decide)
  have hsome := (h.1 0 0).mpr ⟨by decide, by decide⟩
  exact h.2.2 0 0 hsome

/-- Claim C4 counterexample: in the one-line document `"abc"` the search
string `"bc"` occurs at index 1, strictly before the start position
`(0, 2)` — so it is "the occurrence nearest before the start position" — yet
backward `findNext` selects nothing and returns the view unchanged: the
starting line is cut to the portion before index 2 (`"ab"`), in which the
occurrence (which crosses the start index) does not fit, and the wrap never
re-examines the line. -/
theorem findNext_backwards_claim_counterexample :
    occursAt ['b', 'c'] ['a', 'b', 'c'] 1 ∧
    findNext ⟨['b', 'c'], true⟩ [['a', 'b', 'c']] ⟨(0, 2), (0, 2), (0, 2)⟩ false false =
      ⟨(0, 2), (0, 2), (0, 2)⟩ ∧
    (⟨(0, 2), (0, 2), (0, 2)⟩ : ViewState) ≠ ⟨(0, 1), (0, 3), (0, 3)⟩ := by
  refine ⟨by decide, ?_, by decide⟩
  rfl

/-- Claim C10.  When the search string is empty, or does not occur in any
line of the document under the active case-sensitivity setting, `findNext`
(either direction) leaves the highlighted region and caret unchanged, and its
loop examines each line of the document at most once (the visited line
numbers are distinct and all in range). -/
theorem findNext_no_occurrence_noop
    (settings : StoredSettings) (lines : List Str) (view : ViewState)
    (forwards skipCurrentSelection : Bool) (l0 p0 : Nat)
    (hstart : (if skipCurrentSelection then view.hlEnd else view.hlStart) = (l0, p0))
    (hl0 : l0 < lines.length)
    (hno : getSearchString settings = [] ∨
        ∀ line ∈ lines, ∀ i,
          ¬ occursAt (effStr (isCaseSensitiveSearch settings) (getSearchString settings))
              (effStr (isCaseSensitiveSearch settings) line) i) :
    findNext settings lines view forwards skipCurrentSelection = view ∧
    (findNextVisits lines (getSearchString settings) (isCaseSensitiveSearch settings)
        forwards lines.length l0 (p0 : Int)).Nodup ∧
    ∀ l ∈ findNextVisits lines (getSearchString settings) (isCaseSensitiveSearch settings)
        forwards lines.length l0 (p0 : Int), l < lines.length := by
  have hnone := findNextLoop_eq_none_of_no_occurrence lines (getSearchString settings)
    (isCaseSensitiveSearch settings) forwards hno
  refine ⟨?_, ?_⟩
  · simp only [findNext, hstart]
    rw [hnone]
  · cases forwards
    · obtain ⟨h1, h2⟩ := findNextVisitsB_aux lines (getSearchString settings)
        (isCaseSensitiveSearch settings) lines.length l0 (p0 : Int) (Nat.le_refl _) hl0
      exact ⟨h1, fun l hl => (h2 l hl).1⟩
    · obtain ⟨h1, h2⟩ := findNextVisitsF_aux lines (getSearchString settings)
        (isCaseSensitiveSearch settings) lines.length l0 (p0 : Int) (Nat.le_refl _) hl0
      exact ⟨h1, fun l hl => (h2 l hl).1⟩

/-- Claim C10 witness: with an empty search string, `findNext` on the
one-line document `"a"` leaves the view unchanged. -/
theorem findNext_no_occurrence_noop_witness :
    findNext ⟨[], true⟩ [['a']] ⟨(0, 0), (0, 0), (0, 0)⟩ true true =
      ⟨(0, 0), (0, 0), (0, 0)⟩ :=
  (findNext_no_occurrence_noop ⟨[], true⟩ [['a']] ⟨(0, 0), (0, 0), (0, 0)⟩
    true true 0 0 rfl (by decide) (Or.inl rfl)).1

/-- Claim C5.  The find panel's case button writes the new case-sensitivity
flag into the settings store and leaves the stored search string alone;
editing its text field writes the new search string and leaves the flag
alone; and the `findNext` loop reads exactly those stored values: when the
stored preference is case-sensitive a hit is an exact-case occurrence of the
stored search string, and when it is case-insensitive a hit is an occurrence
of the case-folded search string in the case-folded line. -/
theorem search_preferences_respected (s : StoredSettings) :
    (∀ b, findPanelButtonClicked b s = ⟨s.searchString, b⟩) ∧
    (∀ t, findPanelTextChanged t s = ⟨t, s.caseSensitiveSearch⟩) ∧
    (∀ (lines : List Str) (forwards : Bool) (fuel ln : Nat) (lp : Int) (l i : Nat),
        isCaseSensitiveSearch s = true →
        findNextLoop lines (getSearchString s) (isCaseSensitiveSearch s) forwards
            fuel ln lp = some (l, i) →
        occursAt (getSearchString s) (getLine lines l) i) ∧
    (∀ (lines : List Str) (forwards : Bool) (fuel ln : Nat) (lp : Int) (l i : Nat),
        isCaseSensitiveSearch s = false →
        findNextLoop lines (getSearchString s) (isCaseSensitiveSearch s) forwards
            fuel ln lp = some (l, i) →
        occursAt ((getSearchString s).map foldCase) ((getLine lines l).map foldCase) i) := by
  refine ⟨fun b => rfl, fun t => rfl, ?_, ?_⟩
  · intro lines forwards fuel ln lp l i hcs h
    have hocc := findNextLoop_some_occursAt lines (getSearchString s)
      (isCaseSensitiveSearch s) forwards fuel ln lp l i h
    rw [hcs] at hocc
    simpa [effStr] using hocc
  · intro lines forwards fuel ln lp l i hcs h
    have hocc := findNextLoop_some_occursAt lines (getSearchString s)
      (isCaseSensitiveSearch s) forwards fuel ln lp l i h
    rw [hcs] at hocc
    simpa [effStr] using hocc

/-- Claim C5 witness: with the stored case-sensitive search string `"a"`, a
hit of the loop on the one-line document `"a"` is an exact occurrence; and
the two panel handlers write the expected stores. -/
theorem search_preferences_respected_witness :
    occursAt ['a'] (getLine [['a']] 0) 0 ∧
    findPanelButtonClicked false ⟨['a'], true⟩ = ⟨['a'], false⟩ ∧
    findPanelTextChanged ['b'] ⟨['a'], true⟩ = ⟨['b'], true⟩ := by
  refine ⟨?_, ?_, ?_⟩
  · exact (search_preferences_respected ⟨['a'], true⟩).2.2.1 [['a']] true 1 0 0 0 0
      rfl (by decide)
  · exact (search_preferences_respected ⟨['a'], true⟩).1 false
  · exact (search_preferences_respected ⟨['a'], true⟩).2.1 ['b']

/-- A disk file as the editor sees it: its text content and a modification
time stamp (bumped whenever the file is replaced). -/
structure SimFile where
  content : Str
  modTime : Nat
deriving DecidableEq

/-- Modelled from the spec: the document's "modification-time fingerprint"
(JUCE's `FileModificationDetector`, outside `src/`) — `updateHash` records
the file's current modification time and content hash. -/
structure FileModDetector where
  modTime : Nat
  hash : Str
deriving DecidableEq

/-- Modelled from the spec: `FileModificationDetector::updateHash` (outside
`src/`) refreshes the stored fingerprint from the file's current state. -/
def updateHash (f : SimFile) : FileModDetector := ⟨f.modTime, f.content⟩

/-- A `CodeDocument`: its text and whether it has changed since the last
save point (`needsSaving`). -/
structure CodeDoc where
  text : Str
  changedSinceSavePoint : Bool
deriving DecidableEq

/-- Model of `CodeDocument::setSavePoint`: the document no longer needs saving. -/
def setSavePoint (d : CodeDoc) : CodeDoc := ⟨d.text, false⟩

/-- Model of `CodeDocument::applyChanges`: replace the document's text by diffing in
the new content; the document becomes changed when the text actually
differs. -/
def applyChanges (d : CodeDoc) (newContent : Str) : CodeDoc :=
  ⟨newContent, d.changedSinceSavePoint || decide (d.text ≠ newContent)⟩

/-- State of a `SourceCodeDocument`: the lazily created `CodeDocument` (null until
first use) and the modification detector. -/
structure SourceCodeDocument where
  codeDoc : Option CodeDoc
  modDetector : FileModDetector
deriving DecidableEq

/-- The document's `CodeDocument` once it exists (defaulting to an empty
one; `save`, `reloadInternal` and friends only use this after
`getCodeDocument` has materialised it). -/
def theCodeDoc (st : SourceCodeDocument) : CodeDoc := st.codeDoc.getD ⟨[], false⟩

/-- Translation of `SourceCodeDocument::reloadInternal` (lines 62-68): refresh the
fingerprint, load the file's content into the code document, and set the
save point. -/
def reloadInternal (st : SourceCodeDocument) (f : SimFile) : SourceCodeDocument :=
  ⟨st.codeDoc.map (fun d => setSavePoint (applyChanges d f.content)), updateHash f⟩

/-- Translation of `SourceCodeDocument::getCodeDocument` (lines 36-46): on first use create
the `CodeDocument`, reload it from the file and clear the undo history (undo
history is not modelled); afterwards the existing document is returned
unchanged.  This returns the document state after the call. -/
def getCodeDocumentState (st : SourceCodeDocument) (f : SimFile) : SourceCodeDocument :=
  match st.codeDoc with
  | some _ => st
  | none => reloadInternal ⟨some ⟨[], false⟩, st.modDetector⟩ f

/-- Translation of `SourceCodeDocument::reloadFromFile` (lines 56-60). -/
def reloadFromFile (st : SourceCodeDocument) (f : SimFile) : SourceCodeDocument :=
  reloadInternal (getCodeDocumentState st f) f

/-- The environment a single call of `writeCodeDocToFile` runs in: whether
the `FileOutputStream` on the temporary opens, whether streaming the whole
document succeeds, whether `TemporaryFile::overwriteTargetFileWithTemporary`
succeeds, and the replaced file's new modification time. -/
structure WriteEnv where
  openedOk : Bool
  writeOk : Bool
  overwriteOk : Bool
  newModTime : Nat
deriving DecidableEq

/-- Translation of `writeCodeDocToFile` (lines 70-82): the document is streamed into a
temporary file; if the stream did not open or the write failed the function
returns `false` before touching the target; otherwise the temporary replaces
the target (modelled from the spec: `TemporaryFile` is outside `src/`; its
`overwriteTargetFileWithTemporary` atomically replaces the target on success
and leaves it untouched on failure).  Returns the success flag and the
target file afterwards. -/
def writeCodeDocToFile (env : WriteEnv) (file : SimFile) (doc : CodeDoc) :
    Bool × SimFile :=
  if env.openedOk && env.writeOk then
    if env.overwriteOk then (true, ⟨doc.text, env.newModTime⟩)
    else (false, file)
  else (false, file)

/-- Translation of `SourceCodeDocument::save` (lines 84-94): write the code document to the
file; on success set the save point and refresh the fingerprint and return
`true`; on failure return `false`.  Returns (flag, document state, file). -/
def save (env : WriteEnv) (st : SourceCodeDocument) (f : SimFile) :
    Bool × SourceCodeDocument × SimFile :=
  let st1 := getCodeDocumentState st f
  let d := theCodeDoc st1
  let r := writeCodeDocToFile env f d
  if r.1 then (true, ⟨some (setSavePoint d), updateHash r.2⟩, r.2)
  else (false, st1, r.2)

/-- Translation of `SourceCodeDocument::saveAs` (lines 96-104): when the file chooser is
cancelled (`choice = none`) return `true` without writing anything;
otherwise write the code document to the chosen file and return the write's
flag — without setting the save point or refreshing the fingerprint.
Returns (flag, document state, the chosen file afterwards if any). -/
def saveAs (env : WriteEnv) (choice : Option SimFile) (st : SourceCodeDocument)
    (f : SimFile) : Bool × SourceCodeDocument × Option SimFile :=
  match choice with
  | none => (true, st, none)
  | some target =>
    let st1 := getCodeDocumentState st f
    let r := writeCodeDocToFile env target (theCodeDoc st1)
    (r.1, st1, some r.2)

/-- Claim C1.  `SourceCodeDocument::save` returns `true` exactly when the
write succeeds — the output stream opened, the whole document was written,
and the target file was replaced — and its boolean result is exactly the
boolean returned by `writeCodeDocToFile`: the only failure report the caller
gets. -/
theorem save_reports_success_boolean (env : WriteEnv) (st : SourceCodeDocument)
    (f : SimFile) :
    ((save env st f).1 = true ↔
        env.openedOk = true ∧ env.writeOk = true ∧ env.overwriteOk = true) ∧
    (save env st f).1 = (writeCodeDocToFile env f (theCodeDoc (getCodeDocumentState st f))).1 := by
  obtain ⟨o, w, ov, t⟩ := env
  cases o <;> cases w <;> cases ov <;>
    simp [save, writeCodeDocToFile]

/-- Claim C2.  When `save` returns `true` the file's content equals the code
document's text, the document's save point is set (it no longer needs
saving) and the fingerprint equals the file's current state; and after
`reloadFromFile` the code document's text equals the file's content and the
save point is set. -/
theorem save_and_reload_agree (env : WriteEnv) (st : SourceCodeDocument) (f : SimFile) :
    ((save env st f).1 = true →
        ((save env st f).2.2).content = (theCodeDoc (save env st f).2.1).text ∧
        (theCodeDoc (save env st f).2.1).changedSinceSavePoint = false ∧
        ((save env st f).2.1).modDetector = updateHash (save env st f).2.2) ∧
    (theCodeDoc (reloadFromFile st f)).text = f.content ∧
    (theCodeDoc (reloadFromFile st f)).changedSinceSavePoint = false ∧
    (reloadFromFile st f).modDetector = updateHash f := by
  constructor
  · intro h
    obtain ⟨o, w, ov, t⟩ := env
    cases o <;> cases w <;> cases ov <;>
      simp_all [save, writeCodeDocToFile, theCodeDoc, setSavePoint, updateHash]
  · cases hd : st.codeDoc <;>
      simp [reloadFromFile, getCodeDocumentState, reloadInternal, theCodeDoc,
        setSavePoint, applyChanges, hd]

/-- Claim C2 witness: a successful save of the document `"x"` leaves the
file holding `"x"`, the save point set and the fingerprint refreshed; a
reload from a file holding `"y"` loads `"y"` with the save point set. -/
theorem save_and_reload_agree_witness :
    ((save ⟨true, true, true, 5⟩ ⟨some ⟨['x'], true⟩, ⟨0, []⟩⟩ ⟨[], 0⟩).2.2).content = ['x'] ∧
    (theCodeDoc (reloadFromFile ⟨some ⟨['x'], true⟩, ⟨0, []⟩⟩ ⟨['y'], 3⟩)).text = ['y'] := by
  constructor
  · have h := (save_and_reload_agree ⟨true, true, true, 5⟩
      ⟨some ⟨['x'], true⟩, ⟨0, []⟩⟩ ⟨[], 0⟩).1 (by decide)
    rw [h.1]
    decide
  · exact (save_and_reload_agree ⟨true, true, true, 5⟩
      ⟨some ⟨['x'], true⟩, ⟨0, []⟩⟩ ⟨['y'], 3⟩).2.1

/-- Claim C8.  `writeCodeDocToFile` is atomic with respect to the target:
when the stream does not open or the write fails it returns `false` with the
target untouched (the overwrite is never attempted), and whenever it returns
`false` — for whatever reason — the target file is unchanged. -/
theorem writeCodeDocToFile_atomic (env : WriteEnv) (f : SimFile) (d : CodeDoc) :
    ((writeCodeDocToFile env f d).1 = false → (writeCodeDocToFile env f d).2 = f) ∧
    (¬ (env.openedOk = true ∧ env.writeOk = true) →
      writeCodeDocToFile env f d = (false, f)) := by
  obtain ⟨o, w, ov, t⟩ := env
  cases o <;> cases w <;> cases ov <;> simp [writeCodeDocToFile]

/-- Claim C8 witness: a failed open leaves the target file `"old"` exactly
as it was. -/
theorem writeCodeDocToFile_atomic_witness :
    (writeCodeDocToFile ⟨false, true, true, 9⟩ ⟨['o'], 1⟩ ⟨['n'], false⟩).2 = ⟨['o'], 1⟩ :=
  (writeCodeDocToFile_atomic ⟨false, true, true, 9⟩ ⟨['o'], 1⟩ ⟨['n'], false⟩).1 (by decide)

/-- Claim C9.  `saveAs` returns `true` when the user cancels the file
chooser even though nothing was written; and even when the write to the
chosen file succeeds, the document state is exactly what `getCodeDocument`
made of it — in particular, unlike `save`, no save point is set and the
fingerprint is not updated (when the code document already existed, the
document state is entirely unchanged). -/
theorem saveAs_cancel_and_no_savepoint (env : WriteEnv) (st : SourceCodeDocument)
    (f : SimFile) :
    saveAs env none st f = (true, st, none) ∧
    (∀ target, (saveAs env (some target) st f).2.1 = getCodeDocumentState st f) ∧
    (∀ target d0, st.codeDoc = some d0 → (saveAs env (some target) st f).2.1 = st) := by
  refine ⟨rfl, fun target => rfl, ?_⟩
  intro target d0 h
  simp [saveAs, getCodeDocumentState, h]

/-- Claim C9 witness: cancelling leaves everything alone and reports `true`;
a successful `saveAs` of an existing, modified document leaves its
needs-saving flag and fingerprint untouched. -/
theorem saveAs_cancel_and_no_savepoint_witness :
    saveAs ⟨true, true, true, 7⟩ none ⟨some ⟨['x'], true⟩, ⟨0, []⟩⟩ ⟨[], 0⟩ =
      (true, ⟨some ⟨['x'], true⟩, ⟨0, []⟩⟩, none) ∧
    (saveAs ⟨true, true, true, 7⟩ (some ⟨['t'], 2⟩) ⟨some ⟨['x'], true⟩, ⟨0, []⟩⟩
        ⟨[], 0⟩).2.1 = ⟨some ⟨['x'], true⟩, ⟨0, []⟩⟩ := by
  constructor
  · exact (saveAs_cancel_and_no_savepoint ⟨true, true, true, 7⟩
      ⟨some ⟨['x'], true⟩, ⟨0, []⟩⟩ ⟨[], 0⟩).1
  · exact (saveAs_cancel_and_no_savepoint ⟨true, true, true, 7⟩
      ⟨some ⟨['x'], true⟩, ⟨0, []⟩⟩ ⟨[], 0⟩).2.2 ⟨['t'], 2⟩ ⟨['x'], true⟩ rfl

/-- The tokenisers an editor component can be built with; the file defines a
single static `CPlusPlusCodeTokeniser cppTokeniser` (line 507). -/
inductive CodeTokeniserKind
  | cppTokeniser
deriving DecidableEq

/-- What matters of an editor component for claim C6: which class was
instantiated and which tokeniser it holds. -/
structure EditorComponentModel where
  isCppEditor : Bool
  tokeniser : Option CodeTokeniserKind
deriving DecidableEq

/-- Model of the `GenericCodeEditorComponent` constructor (lines 205-210): a plain code
editor over the given tokeniser (possibly none). -/
def genericCodeEditorComponent (tok : Option CodeTokeniserKind) : EditorComponentModel :=
  ⟨false, tok⟩

/-- Model of the `CppCodeEditorComponent` constructor (lines 509-512): delegates to
`GenericCodeEditorComponent` with the static C++ tokeniser. -/
def cppCodeEditorComponent : EditorComponentModel :=
  { genericCodeEditorComponent (some CodeTokeniserKind.cppTokeniser) with isCppEditor := true }

/-- Translation of `SourceCodeEditor::createEditor` (lines 134-140): a
`CppCodeEditorComponent` when the document's file has a source-or-header
extension, else a `GenericCodeEditorComponent` with no tokeniser.  The
extension test (`hasFileExtension (sourceOrHeaderFileExtensions)`) is
modelled from the spec as an abstract predicate: the extension list is
defined outside `src/`. -/
def createEditor (hasSourceOrHeaderExt : Str → Bool) (file : Str) : EditorComponentModel :=
  if hasSourceOrHeaderExt file then cppCodeEditorComponent
  else genericCodeEditorComponent none

/-- Claim C6.  `createEditor` chooses the component by file extension: a
file with a C++ source-or-header extension gets a `CppCodeEditorComponent`
carrying the C++ tokeniser, any other file gets a
`GenericCodeEditorComponent` with no tokeniser. -/
theorem createEditor_picks_component_by_extension
    (hasSourceOrHeaderExt : Str → Bool) (file : Str) :
    (hasSourceOrHeaderExt file = true →
        createEditor hasSourceOrHeaderExt file = cppCodeEditorComponent ∧
        (createEditor hasSourceOrHeaderExt file).tokeniser =
          some CodeTokeniserKind.cppTokeniser ∧
        (createEditor hasSourceOrHeaderExt file).isCppEditor = true) ∧
    (hasSourceOrHeaderExt file = false →
        createEditor hasSourceOrHeaderExt file = genericCodeEditorComponent none ∧
        (createEditor hasSourceOrHeaderExt file).tokeniser = none ∧
        (createEditor hasSourceOrHeaderExt file).isCppEditor = false) := by
  constructor <;> intro h <;>
    simp [createEditor, h, cppCodeEditorComponent, genericCodeEditorComponent]

/-- Claim C6 witness: with the extension predicate recognising exactly
`".cpp"`, a `.cpp` file gets the C++ tokeniser and a `.txt` file gets
none. -/
theorem createEditor_picks_component_by_extension_witness :
    (createEditor (fun s => decide (s = ['.', 'c', 'p', 'p']))
        ['.', 'c', 'p', 'p']).tokeniser = some CodeTokeniserKind.cppTokeniser ∧
    (createEditor (fun s => decide (s = ['.', 'c', 'p', 'p']))
        ['.', 't', 'x', 't']).tokeniser = none := by
  constructor
  · exact ((createEditor_picks_component_by_extension
      (fun s => decide (s = ['.', 'c', 'p', 'p'])) ['.', 'c', 'p', 'p']).1 (by decide)).2.1
  · exact ((createEditor_picks_component_by_extension
      (fun s => decide (s = ['.', 'c', 'p', 'p'])) ['.', 't', 'x', 't']).2 (by decide)).2.1

/-- Modelled from the spec: JUCE's whitespace test used by `trim`,
`trimStart` and `CodeHelpers::getLeadingWhitespace` (all outside `src/`). -/
def isWhitespaceChar (c : Char) : Bool :=
  c = ' ' || c = '\t' || c = '\n' || c = '\r'

/-- Modelled from the spec: `CodeHelpers::getLeadingWhitespace` (outside
`src/`) — the leading whitespace of a line. -/
def getLeadingWhitespace (s : Str) : Str := s.takeWhile isWhitespaceChar

/-- Modelled from the spec: `juce::String::trimStart` (outside `src/`). -/
def trimStartWS (s : Str) : Str := s.dropWhile isWhitespaceChar

/-- Modelled from the spec: `juce::String::trim` (outside `src/`). -/
def trimWS (s : Str) : Str :=
  ((s.dropWhile isWhitespaceChar).reverse.dropWhile isWhitespaceChar).reverse

/-- A single document line with the caret inside it. -/
structure LineBuf where
  text : Str
  caret : Nat
deriving DecidableEq

/-- Model of `insertTextAtCaret`: splice text in at the caret; the caret ends up
after the inserted text. -/
def insertTextAtCaret (b : LineBuf) (s : Str) : LineBuf :=
  ⟨b.text.take b.caret ++ s ++ b.text.drop b.caret, b.caret + s.length⟩

/-- Model of `CodeDocument::deleteSection` restricted to one line: remove
`[startPos, endPos)`; positions at or before the deleted range keep their
index, positions inside or after it shift left. -/
def deleteSection (b : LineBuf) (startPos endPos : Nat) : LineBuf :=
  ⟨b.text.take startPos ++ b.text.drop endPos,
   if b.caret ≤ startPos then b.caret else Nat.max startPos (b.caret - (endPos - startPos))⟩

/-- The previous-line test of `CppCodeEditorComponent::handleReturnKey`
(lines 536-545): the trimmed previous line starts with an `if`/`for`/`while`
head and ends with a closing parenthesis. -/
def prevLineTriggersExtraIndent (previousLine : Str) : Bool :=
  let t := trimWS previousLine
  (List.isPrefixOf ['i', 'f', ' '] t || List.isPrefixOf ['i', 'f', '('] t ||
   List.isPrefixOf ['f', 'o', 'r', ' '] t || List.isPrefixOf ['f', 'o', 'r', '('] t ||
   List.isPrefixOf ['w', 'h', 'i', 'l', 'e', '('] t ||
   List.isPrefixOf ['w', 'h', 'i', 'l', 'e', ' '] t) &&
  t.getLast? = some ')'

/-- Translation of `CppCodeEditorComponent::handleReturnKey` (lines 516-549), starting from
the state just after the inherited handler has inserted the line break: the
caret sits at index 0 of `remainder` (the rest of the broken line) and
`prevLine` is the line before it.  The leading whitespace of `remainder` is
deleted, the block indent or the previous line's indent is inserted at the
caret depending on whether the trimmed remainder starts with a closing
brace, and one extra tab is inserted when the previous line triggers it.
`blockIndent` and `lastLineIndent` are the two strings produced by
`CodeHelpers::getIndentForCurrentBlock` (outside `src/`), and `tabString`
is the editor's tab string; all three are parameters.  Returns the resulting
line buffer. -/
def handleReturnKey (tabString blockIndent lastLineIndent prevLine remainder : Str) :
    LineBuf :=
  let numLeadingWSChars := (getLeadingWhitespace remainder).length
  let b0 : LineBuf := ⟨remainder, 0⟩
  let b1 := if numLeadingWSChars > 0 then deleteSection b0 0 numLeadingWSChars else b0
  let b2 := if (trimStartWS remainder).head? = some '}' then insertTextAtCaret b1 blockIndent
            else insertTextAtCaret b1 lastLineIndent
  if prevLineTriggersExtraIndent prevLine then insertTextAtCaret b2 tabString else b2

/-- Claim C7.  After the return key breaks the line, the resulting line is
exactly: the chosen indent — the enclosing block's indent when the trimmed
remainder begins with a closing brace, the previous line's indent
otherwise — followed by one extra tab exactly when the trimmed previous line
starts with `if`/`for`/`while` (space or parenthesis form) and ends with a
closing parenthesis, followed by the remainder with its leading whitespace
removed. -/
theorem handleReturnKey_indentation
    (tabString blockIndent lastLineIndent prevLine remainder : Str) :
    (handleReturnKey tabString blockIndent lastLineIndent prevLine remainder).text =
      (if (trimStartWS remainder).head? = some '}' then blockIndent else lastLineIndent) ++
        (if prevLineTriggersExtraIndent prevLine then tabString else []) ++
        remainder.dropWhile isWhitespaceChar := by
  have hsplit : remainder.takeWhile isWhitespaceChar ++
      remainder.dropWhile isWhitespaceChar = remainder :=
    List.takeWhile_append_dropWhile _ _
  have hdrop : remainder.drop (getLeadingWhitespace remainder).length =
      remainder.dropWhile isWhitespaceChar := by
    rw [getLeadingWhitespace]
    calc List.drop (List.takeWhile isWhitespaceChar remainder).length remainder
        = List.drop (List.takeWhile isWhitespaceChar remainder).length
            (List.takeWhile isWhitespaceChar remainder ++
              List.dropWhile isWhitespaceChar remainder) := by rw [hsplit]
      _ = List.dropWhile isWhitespaceChar remainder := List.drop_left _ _
  have hb1 : (if (getLeadingWhitespace remainder).length > 0 then
        deleteSection ⟨remainder, 0⟩ 0 (getLeadingWhitespace remainder).length
      else (⟨remainder, 0⟩ : LineBuf)) = ⟨remainder.dropWhile isWhitespaceChar, 0⟩ := by
    split_ifs with h
    · simp [deleteSection, hdrop]
    · have h0 : (getLeadingWhitespace remainder).length = 0 := by omega
      have htw : remainder.takeWhile isWhitespaceChar = [] := by
        rw [getLeadingWhitespace] at h0
        exact List.length_eq_zero.mp h0
      rw [htw] at hsplit
      simp only [List.nil_append] at hsplit
      rw [hsplit]
  have hins : ∀ (s rest : Str), insertTextAtCaret ⟨rest, 0⟩ s = ⟨s ++ rest, s.length⟩ := by
    intro s rest
    simp [insertTextAtCaret]
  have hins2 : ∀ (s tab rest : Str),
      insertTextAtCaret ⟨s ++ rest, s.length⟩ tab = ⟨s ++ tab ++ rest, s.length + tab.length⟩ := by
    intro s tab rest
    simp [insertTextAtCaret, List.take_left, List.drop_left, List.append_assoc]
  rw [handleReturnKey]
  simp only [hb1]
  split_ifs with hbrace hprev hprev <;>
    simp [hins, hins2, List.append_assoc]
